import Mathlib

/-!
Verification of the kovi-plugin-ciyi game engine.

The repository contains two variants of the engine:
* `src/lib.rs`, module `ciyi_game` — the two-phase variant
  (`prepare_guess` / `commit_guess` on `CiYiGameManager`);
* `src/ciyi_game.rs` — an older single-phase variant
  (`CiYiGameState::guess` performing fetches inline).

Both are embedded below.  Timestamps (`chrono::DateTime<Utc>`) are
modelled as `Int` seconds since the Unix epoch; two UTC instants fall on
the same `date_naive()` calendar date exactly when the floor divisions
of their second counts by 86400 agree, so calendar dates are modelled by
`dateNaive`.  `HashSet<String>` fields are modelled as `List String`
used only through membership and guarded insertion, matching every use
in the source.  `HashMap<String, CiYiGameState>` is modelled as an
association list with lookup/insert/modify helpers.  Network fetches,
`Utc::now()` and `fastrand` calls are passed in as explicit arguments.
-/

namespace CiYi

/-- Plugin configuration fields consumed by the engine (`p_config.rs`):
the default direct-guess mode, the number of hint lines displayed, and
the number of leaderboard entries displayed. -/
structure Config where
  direct_guess : Bool
  history_display : Nat
  rank_display : Nat
deriving DecidableEq

/-- Rust `Hint` with text and rank, from the source. -/
structure Hint where
  text : String
  rank : Nat
deriving DecidableEq

/-- Rust `WinRecord`: user id, username, channel id and timestamp. -/
structure WinRecord where
  user_id : String
  username : String
  channel_id : String
  timestamp : Int
deriving DecidableEq

/-- Rust `UserScore` (leaderboard aggregation). -/
structure UserScore where
  user_id : String
  username : String
  score : Nat
deriving DecidableEq

/-- Rust `CiYiGameState`: the per-channel session state. -/
structure CiYiGameState where
  channel_id : String
  target_word : String
  last_start_time : Int
  global_history : List String
  current_guesses : List String
  words_rank_list : List String
  hints : List Hint
  is_finished : Bool
  direct_guess_enabled : Bool
deriving DecidableEq

/-- Rust `FetchReason` from `lib.rs`. -/
inductive FetchReason where
  | newGame
  | newDay
  | missingRankList
deriving DecidableEq

/-- Rust `FetchRequest`: the word to fetch and the reason. -/
structure FetchRequest where
  word_to_fetch : String
  reason : FetchReason
deriving DecidableEq

/-- Rust `FetchedData`; the fallible fetch result is an
`Except` whose error is the rendered error text. -/
structure FetchedData where
  request : FetchRequest
  result : Except String (List String)

/-- Rust `CiYiGameManager` (the registry): session map and win records. -/
structure CiYiGameManager where
  states : List (String × CiYiGameState)
  win_records : List WinRecord
deriving DecidableEq

/-- Days-since-epoch of a UTC timestamp in seconds; two `DateTime<Utc>`
values have equal `date_naive()` exactly when these numbers agree. -/
def dateNaive (t : Int) : Int := Int.fdiv t 86400

/-- Rust `CiYiGameState::is_new_day_in_china_timezone` (`lib.rs`): shift both
instants by 8 hours and compare calendar dates. -/
def is_new_day_in_china_timezone (st : CiYiGameState) (now : Int) : Bool :=
  dateNaive (now + 8 * 3600) != dateNaive (st.last_start_time + 8 * 3600)

/-- The rollover test of the older variant (`ciyi_game.rs`, line 67):
`Utc::now().date_naive() != self.last_start_time.date_naive()`,
i.e. plain-UTC calendar dates, with no timezone shift. -/
def ciyiIsNewDay (now last : Int) : Bool :=
  dateNaive now != dateNaive last

/-- Model of `HashMap::get` on the session map, as an association list. -/
def mapLookup (m : List (String × CiYiGameState)) (k : String) :
    Option CiYiGameState :=
  match m with
  | [] => none
  | (k₁, v) :: rest => if k₁ = k then some v else mapLookup rest k

/-- Model of `HashMap::insert` (replace-or-append) on the association list. -/
def mapInsert (m : List (String × CiYiGameState)) (k : String)
    (v : CiYiGameState) : List (String × CiYiGameState) :=
  if (mapLookup m k).isSome then
    m.map (fun p => (p.1, if p.1 = k then v else p.2))
  else m ++ [(k, v)]

/-- In-place mutation through `HashMap::get_mut`, modelled as mapping a
function over the entry with the given key. -/
def mapModify (m : List (String × CiYiGameState)) (k : String)
    (f : CiYiGameState → CiYiGameState) : List (String × CiYiGameState) :=
  m.map (fun p => (p.1, if p.1 = k then f p.2 else p.2))

/-- Model of `HashSet::insert`: a no-op when the element is already present. -/
def insertSet (s : List String) (w : String) : List String :=
  if s.contains w then s else w :: s

/-- The order `impl Ord for Hint` sorts by: comparison of ranks. -/
def hintLe (a b : Hint) : Prop := a.rank ≤ b.rank

instance : DecidableRel hintLe := fun a b =>
  inferInstanceAs (Decidable (a.rank ≤ b.rank))

instance : IsTotal Hint hintLe := ⟨fun a b => Nat.le_total a.rank b.rank⟩

instance : IsTrans Hint hintLe := ⟨fun _ _ _ h₁ h₂ => Nat.le_trans h₁ h₂⟩

/-- Model of `self.hints.sort_unstable()`, as insertion sort by rank.
Whenever the ranks in the list are pairwise distinct — which holds in
every reachable session state, see `HintInv` below — a sorted
rearrangement of the list is unique, so every comparison sort (in
particular Rust's pdqsort) produces exactly this result. -/
def sortHints (l : List Hint) : List Hint := List.insertionSort hintLe l

/-- The previous-word character of a hint: second character of the entry
just before index `i`, or the placeholder.  `index.wrapping_sub(1)` makes
the lookup miss when `i = 0`. -/
def prevCharOf (list : List String) (i : Nat) : Char :=
  (if i == 0 then none
   else (list[i-1]?).bind (fun w => w.toList[1]?)).getD '？'

/-- The next-word character of a hint: first character of the entry just
after index `i`, or the placeholder. -/
def nextCharOf (list : List String) (i : Nat) : Char :=
  ((list[i+1]?).bind (fun w => w.toList[0]?)).getD '？'

/-- The hint recorded for a non-winning guess found at 0-based index `i`
of the ranked list:
`format!("？{prev_char} ) {guess_word} ( {next_char}？ #{rank}")`. -/
def mkHint (list : List String) (i : Nat) (guess : String) : Hint :=
  { text := "？" ++ (prevCharOf list i).toString ++ " ) " ++ guess
      ++ " ( " ++ (nextCharOf list i).toString ++ "？ #" ++ toString (i + 1),
    rank := i + 1 }

/-- Rendering of the hint list: the first `history_display` hints, each
as `"{i+1}. {text}\n"`, concatenated. -/
def renderHints (limit : Nat) (hints : List Hint) : String :=
  String.join ((hints.take limit).enum.map
    (fun p => toString (p.1 + 1) ++ ". " ++ p.2.text ++ "\n"))

/-- The fresh session built by the `FetchReason::NewGame` arm of
`commit_guess`. -/
def freshState (cfg : Config) (channel word : String) (now : Int)
    (rankList : List String) : CiYiGameState :=
  { channel_id := channel
    target_word := word
    last_start_time := now
    global_history := [word]
    current_guesses := []
    words_rank_list := rankList
    hints := []
    is_finished := false
    direct_guess_enabled := cfg.direct_guess }

/-- Application of successfully fetched data per its reason (step 1 of
`commit_guess`, the `Ok` case). -/
def applyFetchOk (cfg : Config) (mgr : CiYiGameManager) (channel : String)
    (req : FetchRequest) (rankList : List String) (now : Int) :
    CiYiGameManager :=
  match req.reason with
  | .newGame =>
      { mgr with states := (mapInsert mgr.states channel
          (freshState cfg channel req.word_to_fetch now rankList)) }
  | .newDay =>
      { mgr with states := (mapModify mgr.states channel (fun st =>
          { st with
            hints := []
            current_guesses := []
            target_word := req.word_to_fetch
            global_history := insertSet st.global_history req.word_to_fetch
            words_rank_list := rankList
            last_start_time := now
            is_finished := false })) }
  | .missingRankList =>
      { mgr with states := (mapModify mgr.states channel (fun st =>
          { st with words_rank_list := rankList })) }

/-- The hint list after a non-winning accepted guess: push the hint when
the guess occurs in the ranked list, then `sort_unstable`. -/
def newHints (st : CiYiGameState) (guess : String) : List Hint :=
  sortHints
    (match st.words_rank_list.findIdx? (fun w => w == guess) with
     | some i => st.hints ++ [mkHint st.words_rank_list i guess]
     | none => st.hints)

/-- Session mutation of the winning branch: the guess is inserted into
`current_guesses` and `is_finished` is set. -/
def winUpdate (guess : String) (s : CiYiGameState) : CiYiGameState :=
  { s with current_guesses := insertSet s.current_guesses guess
           is_finished := true }

/-- Session mutation of the non-winning branch: the guess is inserted
into `current_guesses` and the hint list is replaced by `hints₁`. -/
def hintUpdate (guess : String) (hints₁ : List Hint) (s : CiYiGameState) :
    CiYiGameState :=
  { s with current_guesses := insertSet s.current_guesses guess
           hints := hints₁ }

/-- Steps 2–8 of `CiYiGameManager::commit_guess`: the guess handling
after any fetched data has been applied. -/
def commitCore (cfg : Config) (allWords : List String)
    (mgr : CiYiGameManager) (channel user username guess : String)
    (now : Int) : String × CiYiGameManager :=
  match mapLookup mgr.states channel with
  | none => ("游戏尚未开始，请重试", mgr)
  | some st =>
    if st.is_finished then ("每天只能玩一次哦！", mgr)
    else if st.current_guesses.contains guess then (guess ++ " 已猜过", mgr)
    else if !(allWords.contains guess) then (guess ++ " 不在词库中", mgr)
    else if guess = st.target_word then
      ("恭喜你猜对了！\n答案：" ++ st.target_word ++ "\n猜测："
         ++ toString (insertSet st.current_guesses guess).length ++ " 次",
       { states := mapModify mgr.states channel (winUpdate guess)
         win_records := mgr.win_records ++ [⟨user, username, channel, now⟩] })
    else
      (renderHints cfg.history_display (newHints st guess) ++ "...",
       { mgr with states :=
          mapModify mgr.states channel (hintUpdate guess (newHints st guess)) })

/-- Rust `CiYiGameManager::commit_guess` (`lib.rs`): apply any fetched data
(an error returns immediately), then handle the guess. -/
def commit_guess (cfg : Config) (allWords : List String)
    (mgr : CiYiGameManager) (channel user username guess : String)
    (fetched : Option FetchedData) (now : Int) : String × CiYiGameManager :=
  match fetched with
  | some d =>
    match d.result with
    | .error e => ("获取词语排名失败：" ++ e, mgr)
    | .ok rankList =>
        commitCore cfg allWords (applyFetchOk cfg mgr channel d.request rankList now)
          channel user username guess now
  | none => commitCore cfg allWords mgr channel user username guess now

/-- Rust `CiYiGameManager::prepare_guess` (`lib.rs`).  The `fastrand` draw is
modelled by the argument `pick`, reduced modulo the length of the list
drawn from. -/
def prepare_guess (questionWords : List String) (mgr : CiYiGameManager)
    (channel : String) (now : Int) (pick : Nat) : Option FetchRequest :=
  match mapLookup mgr.states channel with
  | none =>
      some ⟨(questionWords[pick % questionWords.length]?).getD "", .newGame⟩
  | some st =>
    if st.is_finished && is_new_day_in_china_timezone st now then
      if (questionWords.filter (fun w => !(st.global_history.contains w))).isEmpty
      then none
      else some ⟨((questionWords.filter (fun w => !(st.global_history.contains w)))[pick %
        (questionWords.filter (fun w => !(st.global_history.contains w))).length]?).getD "",
        .newDay⟩
    else if !st.is_finished && st.words_rank_list.isEmpty then
      some ⟨st.target_word, .missingRankList⟩
    else none

/-- Rust `CiYiGameManager::get_direct_guess_status`. -/
def get_direct_guess_status (cfg : Config) (mgr : CiYiGameManager)
    (channel : String) (now : Int) : Bool :=
  match mapLookup mgr.states channel with
  | some s =>
      (is_new_day_in_china_timezone s now || !s.is_finished)
        && s.direct_guess_enabled
  | none => cfg.direct_guess

/-- Rust `CiYiGameManager::toggle_direct_guess_mode`: lazily create a session
(with an empty rank list), then flip the flag. -/
def toggle_direct_guess_mode (cfg : Config) (questionWords : List String)
    (mgr : CiYiGameManager) (channel : String) (now : Int) (pick : Nat) :
    String × CiYiGameManager :=
  match mapLookup mgr.states channel with
  | some st =>
      ((if !st.direct_guess_enabled then "直接猜测模式 已开启"
        else "直接猜测模式 已关闭"),
       { mgr with states := mapModify mgr.states channel (fun s =>
           { s with direct_guess_enabled := !s.direct_guess_enabled }) })
  | none =>
      let target := (questionWords[pick % questionWords.length]?).getD ""
      let st₁ : CiYiGameState :=
        { channel_id := channel
          target_word := target
          last_start_time := now
          global_history := [target]
          current_guesses := []
          words_rank_list := []
          hints := []
          is_finished := false
          direct_guess_enabled := !cfg.direct_guess }
      ((if st₁.direct_guess_enabled then "直接猜测模式 已开启"
        else "直接猜测模式 已关闭"),
       { mgr with states := mapInsert mgr.states channel st₁ })

/-- One `for record in records` step of `generate_leaderboard`:
`entry(uid).or_insert(score 0)` then `username := record's`,
`score += 1`. -/
def updScores (scores : List UserScore) (r : WinRecord) : List UserScore :=
  if scores.any (fun u => u.user_id == r.user_id) then
    scores.map (fun u =>
      if u.user_id = r.user_id then
        { u with username := r.username, score := u.score + 1 }
      else u)
  else scores ++ [⟨r.user_id, r.username, 1⟩]

/-- Left fold of `updScores` over the record sequence. -/
def groupScoresAux (acc : List UserScore) :
    List WinRecord → List UserScore
  | [] => acc
  | r :: rest => groupScoresAux (updScores acc r) rest

/-- The score map built by `generate_leaderboard`, as a list in first
insertion order (the `HashMap` iteration order is unspecified; every
property proved below is order-independent). -/
def groupScores (records : List WinRecord) : List UserScore :=
  groupScoresAux [] records

/-- The descending-by-score order used by
`sorted_scores.sort_by(|a, b| b.score.cmp(&a.score))`. -/
def scoreGe (a b : UserScore) : Prop := b.score ≤ a.score

instance : DecidableRel scoreGe := fun a b =>
  inferInstanceAs (Decidable (b.score ≤ a.score))

instance : IsTotal UserScore scoreGe := ⟨fun a b => Nat.le_total b.score a.score⟩

instance : IsTrans UserScore scoreGe := ⟨fun _ _ _ h₁ h₂ => Nat.le_trans h₂ h₁⟩

/-- The sort of the score list (a stable sort, like `Vec::sort_by`). -/
def sortScores (l : List UserScore) : List UserScore :=
  List.insertionSort scoreGe l

/-- Model of `Vec::join("\n")`. -/
def joinLines : List String → String
  | [] => ""
  | [x] => x
  | x :: y :: xs => x ++ "\n" ++ joinLines (y :: xs)

/-- Rust `CiYiGameManager::generate_leaderboard` over an explicit record
sequence. -/
def generate_leaderboard (cfg : Config) (records : List WinRecord) : String :=
  let scores := groupScores records
  if scores.isEmpty then "当前还没有人猜对过哦！"
  else
    joinLines (((sortScores scores).take cfg.rank_display).enum.map
      (fun p => toString (p.1 + 1) ++ ". " ++ p.2.username ++ " "
        ++ toString p.2.score))

/-- The duplicate/dictionary/win/hint steps shared by both variants,
acting on a single session (`ciyi_game.rs`, lines 104–159). -/
def ciyiGuessSteps (cfg : Config) (allWords : List String)
    (st : CiYiGameState) (guess : String) : (String × Bool) × CiYiGameState :=
  if st.current_guesses.contains guess then ((guess ++ " 已猜过", false), st)
  else if !(allWords.contains guess) then ((guess ++ " 不在词库中", false), st)
  else if guess = st.target_word then
    (("恭喜你猜对了！\n答案：" ++ st.target_word ++ "\n猜测："
        ++ toString (insertSet st.current_guesses guess).length ++ " 次", true),
     winUpdate guess st)
  else
    ((renderHints cfg.history_display (newHints st guess) ++ "...", false),
     hintUpdate guess (newHints st guess) st)

/-- The part of `CiYiGameState::guess` (`ciyi_game.rs`) after the
finished-day handling: refetch an empty rank list, then run the
duplicate/dictionary/win/hint steps.  `fetch` stands for
`fetch_words_rank_list`. -/
def ciyiGuessCore (cfg : Config) (allWords : List String)
    (fetch : String → Except String (List String)) (st : CiYiGameState)
    (guess : String) : (String × Bool) × CiYiGameState :=
  match (if st.words_rank_list.isEmpty then fetch st.target_word
         else .ok st.words_rank_list) with
  | .error e => (("获取词语排名失败：" ++ e, false), st)
  | .ok rankList =>
    ciyiGuessSteps cfg allWords { st with words_rank_list := rankList } guess

/-- Rust `CiYiGameState::guess` (`ciyi_game.rs`, the older single-phase
variant).  On a finished session on a new plain-UTC day it clears the
hints and guesses and replaces the target *before* fetching; a fetch
error then returns with those mutations already applied. -/
def ciyiGuess (cfg : Config) (questionWords allWords : List String)
    (fetch : String → Except String (List String)) (st : CiYiGameState)
    (guess : String) (now : Int) (pick : Nat) :
    (String × Bool) × CiYiGameState :=
  if st.is_finished then
    if ciyiIsNewDay now st.last_start_time then
      let candidates :=
        questionWords.filter (fun w => !(st.global_history.contains w))
      if candidates.isEmpty then (("题库已空", false), st)
      else
        let newTarget := (candidates[pick % candidates.length]?).getD ""
        let st₁ := { st with hints := ([] : List Hint)
                             current_guesses := ([] : List String)
                             target_word := newTarget }
        match fetch newTarget with
        | .error e => (("获取词语排名失败：" ++ e, false), st₁)
        | .ok list =>
          let st₂ := { st₁ with
            words_rank_list := list
            global_history := insertSet st₁.global_history newTarget
            last_start_time := now
            is_finished := false }
          ciyiGuessCore cfg allWords fetch st₂ guess
    else (("今日已结束 请明天再来", false), st)
  else ciyiGuessCore cfg allWords fetch st guess

/-! ### Lemmas about the container models -/

theorem contains_iff_mem {l : List String} {a : String} :
    l.contains a = true ↔ a ∈ l := by
  simp [List.contains]

theorem insertSet_contains_self (s : List String) (w : String) :
    (insertSet s w).contains w = true := by
  unfold insertSet
  split
  · assumption
  · simp

theorem insertSet_contains_mono {s : List String} {x : String} (w : String)
    (h : s.contains x = true) : (insertSet s w).contains x = true := by
  unfold insertSet
  split
  · exact h
  · rw [contains_iff_mem] at h ⊢
    exact List.mem_cons_of_mem _ h

theorem insertSet_of_not_contains {s : List String} {w : String}
    (h : s.contains w = false) : insertSet s w = w :: s := by
  unfold insertSet
  rw [h]
  simp

theorem mapLookup_mapModify (m : List (String × CiYiGameState)) (k c : String)
    (f : CiYiGameState → CiYiGameState) :
    mapLookup (mapModify m k f) c =
      if k = c then (mapLookup m c).map f else mapLookup m c := by
  induction m with
  | nil => simp [mapModify, mapLookup]
  | cons p rest ih =>
    obtain ⟨k₁, v⟩ := p
    rw [mapModify, List.map_cons]
    rw [mapModify] at ih
    by_cases h₂ : k₁ = c
    · subst h₂
      by_cases h₁ : k₁ = k
      · subst h₁
        simp [mapLookup]
      · have hkc : ¬ k = k₁ := fun hh => h₁ hh.symm
        simp [mapLookup, h₁, hkc]
    · simp only [mapLookup, if_neg h₂]
      exact ih

theorem mapLookup_append (m₁ m₂ : List (String × CiYiGameState)) (c : String) :
    mapLookup (m₁ ++ m₂) c = (mapLookup m₁ c).or (mapLookup m₂ c) := by
  induction m₁ with
  | nil => simp [mapLookup]
  | cons p rest ih =>
    obtain ⟨k₁, v⟩ := p
    by_cases h₁ : k₁ = c <;> simp [mapLookup, h₁, ih]

theorem mapLookup_map_overwrite (m : List (String × CiYiGameState))
    (k c : String) (v : CiYiGameState) :
    mapLookup (m.map (fun p => (p.1, if p.1 = k then v else p.2))) c =
      if k = c then (mapLookup m c).map (fun _ => v) else mapLookup m c := by
  induction m with
  | nil => simp [mapLookup]
  | cons p rest ih =>
    obtain ⟨k₁, u⟩ := p
    rw [List.map_cons]
    by_cases h₂ : k₁ = c
    · subst h₂
      by_cases h₁ : k₁ = k
      · subst h₁
        simp [mapLookup]
      · have hkc : ¬ k = k₁ := fun hh => h₁ hh.symm
        simp [mapLookup, h₁, hkc]
    · simp only [mapLookup, if_neg h₂]
      exact ih

theorem mapLookup_mapInsert (m : List (String × CiYiGameState))
    (k c : String) (v : CiYiGameState) :
    mapLookup (mapInsert m k v) c =
      if k = c then some v else mapLookup m c := by
  unfold mapInsert
  split
  · rename_i hsome
    rw [mapLookup_map_overwrite]
    by_cases hkc : k = c
    · subst hkc
      obtain ⟨u, hu⟩ := Option.isSome_iff_exists.mp hsome
      simp [hu]
    · simp [hkc]
  · rename_i hsome
    rw [mapLookup_append]
    have hnone : mapLookup m k = none := by
      cases h : mapLookup m k with
      | none => rfl
      | some u => rw [h] at hsome; simp at hsome
    by_cases hkc : k = c
    · subst hkc
      simp [hnone, mapLookup]
    · have h₂ : mapLookup [(k, v)] c = none := by simp [mapLookup, hkc]
      rw [h₂, if_neg hkc]
      cases mapLookup m c <;> rfl

/-! ### Lemmas about the hint sort -/

theorem sortHints_perm (l : List Hint) : List.Perm (sortHints l) l :=
  List.perm_insertionSort hintLe l

theorem sortHints_sorted (l : List Hint) : List.Sorted hintLe (sortHints l) :=
  List.sorted_insertionSort hintLe l

theorem mem_sortHints {l : List Hint} {h : Hint} : h ∈ sortHints l ↔ h ∈ l :=
  (sortHints_perm l).mem_iff

theorem findIdx?_beq_getElem {l : List String} {g : String} {i : Nat}
    (h : l.findIdx? (fun w => w == g) = some i) : l[i]? = some g := by
  obtain ⟨hlt, hp, -⟩ := List.findIdx?_eq_some_iff_getElem.mp h
  have hg : l[i] = g := by simpa using hp
  simp [List.getElem?_eq_getElem hlt, hg]

/-! ### The hint invariant of reachable sessions -/

/-- Invariant of every reachable session: the hints are sorted by rank,
their ranks are pairwise distinct, and every hint's rank points (1-based)
into the current ranked list at a word that has already been guessed
against the current target.  The last conjunct is what makes ranks
distinct when a new hint is pushed: the new hint's slot holds the new
guess, which cannot have been guessed before. -/
def HintInv (st : CiYiGameState) : Prop :=
  List.Sorted hintLe st.hints ∧
  (st.hints.map Hint.rank).Nodup ∧
  ∀ h ∈ st.hints, 1 ≤ h.rank ∧
    ∃ w, st.words_rank_list[h.rank - 1]? = some w ∧
      st.current_guesses.contains w = true

/-- Predicate `HintInv` holding for every session in the registry. -/
def MgrHintInv (mgr : CiYiGameManager) : Prop :=
  ∀ c st, mapLookup mgr.states c = some st → HintInv st

theorem hintInv_of_hints_nil {st : CiYiGameState} (h : st.hints = []) :
    HintInv st := by
  refine ⟨?_, ?_, ?_⟩ <;> simp [h]

theorem hints_nil_of_rank_list_nil {st : CiYiGameState} (hinv : HintInv st)
    (h : st.words_rank_list = []) : st.hints = [] := by
  cases hh : st.hints with
  | nil => rfl
  | cons a l =>
    exfalso
    obtain ⟨-, w, hw, -⟩ := hinv.2.2 a (by rw [hh]; exact List.mem_cons_self a l)
    rw [h] at hw
    simp at hw

theorem hintInv_winUpdate {st : CiYiGameState} (g : String)
    (hinv : HintInv st) : HintInv (winUpdate g st) := by
  obtain ⟨hs, hn, hp⟩ := hinv
  refine ⟨hs, hn, ?_⟩
  intro x hx
  obtain ⟨h1, w, hw, hc⟩ := hp x hx
  exact ⟨h1, w, hw, insertSet_contains_mono g hc⟩

theorem rank_succ_not_mem_ranks {st : CiYiGameState} {g : String} {i : Nat}
    (hinv : HintInv st) (hdup : st.current_guesses.contains g = false)
    (hidx : st.words_rank_list.findIdx? (fun w => w == g) = some i) :
    ¬ (i + 1) ∈ st.hints.map Hint.rank := by
  intro hmem
  obtain ⟨x, hx, hrank⟩ := List.mem_map.mp hmem
  obtain ⟨-, w, hw, hc⟩ := hinv.2.2 x hx
  rw [hrank] at hw
  simp only [Nat.add_sub_cancel] at hw
  have hg := findIdx?_beq_getElem hidx
  rw [hg] at hw
  obtain rfl : g = w := by injection hw
  rw [hc] at hdup
  cases hdup

theorem hintInv_hintUpdate {st : CiYiGameState} {g : String}
    (hinv : HintInv st) (hdup : st.current_guesses.contains g = false) :
    HintInv (hintUpdate g (newHints st g) st) := by
  obtain ⟨hs, hn, hp⟩ := hinv
  unfold hintUpdate newHints
  cases hidx : st.words_rank_list.findIdx? (fun w => w == g) with
  | none =>
    refine ⟨sortHints_sorted _, ?_, ?_⟩
    · exact (((sortHints_perm st.hints).map Hint.rank).nodup_iff).mpr hn
    · intro x hx
      rw [mem_sortHints] at hx
      obtain ⟨h1, w, hw, hc⟩ := hp x hx
      exact ⟨h1, w, hw, insertSet_contains_mono g hc⟩
  | some i =>
    refine ⟨sortHints_sorted _, ?_, ?_⟩
    · refine (((sortHints_perm _).map Hint.rank).nodup_iff).mpr ?_
      rw [List.map_append]
      rw [List.nodup_append]
      refine ⟨hn, by simp, ?_⟩
      intro r hr hr'
      simp only [mkHint, List.map_cons, List.map_nil, List.mem_singleton] at hr'
      subst hr'
      exact rank_succ_not_mem_ranks ⟨hs, hn, hp⟩ hdup hidx hr
    · intro x hx
      rw [mem_sortHints] at hx
      rcases List.mem_append.mp hx with hx | hx
      · obtain ⟨h1, w, hw, hc⟩ := hp x hx
        exact ⟨h1, w, hw, insertSet_contains_mono g hc⟩
      · rw [List.mem_singleton] at hx
        subst hx
        refine ⟨Nat.le_add_left 1 i, g, ?_, insertSet_contains_self _ g⟩
        simp only [mkHint, Nat.add_sub_cancel]
        exact findIdx?_beq_getElem hidx

/-- Preservation of the hint invariant by the guess-handling steps of
`commit_guess`. -/
theorem commitCore_hintInv (cfg : Config) (allW : List String)
    (mgr : CiYiGameManager) (ch u un g : String) (now : Int)
    (hinv : MgrHintInv mgr) :
    MgrHintInv (commitCore cfg allW mgr ch u un g now).2 := by
  unfold commitCore
  split
  · exact hinv
  rename_i st hl
  split
  · exact hinv
  split
  · exact hinv
  split
  · exact hinv
  split
  · -- winning branch
    intro c st₂ h₂
    simp only at h₂
    rw [mapLookup_mapModify] at h₂
    split at h₂
    · rename_i hc
      subst hc
      rw [hl] at h₂
      simp only [Option.map_some'] at h₂
      injection h₂ with h₂
      subst h₂
      exact hintInv_winUpdate g (hinv ch st hl)
    · exact hinv c st₂ h₂
  · -- non-winning branch
    rename_i hfin hdup hdict hne
    intro c st₂ h₂
    simp only at h₂
    rw [mapLookup_mapModify] at h₂
    split at h₂
    · rename_i hc
      subst hc
      rw [hl] at h₂
      simp only [Option.map_some'] at h₂
      injection h₂ with h₂
      subst h₂
      have hdup' : st.current_guesses.contains g = false :=
        Bool.of_not_eq_true hdup
      exact hintInv_hintUpdate (hinv ch st hl) hdup'
    · exact hinv c st₂ h₂

/-! ### The two-phase protocol contract and inversion of prepare -/

/-- The sequencing contract of the two-phase protocol (spec §4.1): the
fetched data handed to `commit_guess` carries exactly the request that
`prepare_guess` produced on the current registry state (with an
arbitrary fetch result), and is absent exactly when no fetch was
requested. -/
def FetchConsistent (questionWords : List String) (mgr : CiYiGameManager)
    (channel : String) (now : Int) (pick : Nat)
    (fetched : Option FetchedData) : Prop :=
  (prepare_guess questionWords mgr channel now pick = none ∧ fetched = none) ∨
  (∃ req res, prepare_guess questionWords mgr channel now pick = some req ∧
    fetched = some ⟨req, res⟩)

theorem prepare_newGame_inv {qW : List String} {mgr : CiYiGameManager}
    {channel : String} {now : Int} {pick : Nat} {req : FetchRequest}
    (h : prepare_guess qW mgr channel now pick = some req)
    (hr : req.reason = FetchReason.newGame) :
    mapLookup mgr.states channel = none := by
  unfold prepare_guess at h
  split at h
  · assumption
  · rename_i st hst
    split at h
    · split at h
      · cases h
      · injection h with h
        subst h
        cases hr
    · split at h
      · injection h with h
        subst h
        cases hr
      · cases h

theorem prepare_newDay_inv {qW : List String} {mgr : CiYiGameManager}
    {channel : String} {now : Int} {pick : Nat} {req : FetchRequest}
    (h : prepare_guess qW mgr channel now pick = some req)
    (hr : req.reason = FetchReason.newDay) :
    ∃ st, mapLookup mgr.states channel = some st ∧
      st.is_finished = true ∧
      is_new_day_in_china_timezone st now = true ∧
      req.word_to_fetch ∈
        qW.filter (fun w => !(st.global_history.contains w)) := by
  unfold prepare_guess at h
  split at h
  · injection h with h
    subst h
    cases hr
  · rename_i st hst
    refine ⟨st, hst, ?_⟩
    split at h
    · rename_i hcond
      rw [Bool.and_eq_true] at hcond
      refine ⟨hcond.1, hcond.2, ?_⟩
      split at h
      · cases h
      · rename_i hne
        injection h with h
        subst h
        have hne' : qW.filter (fun w => !(st.global_history.contains w)) ≠ [] := by
          intro hnil
          rw [hnil] at hne
          simp at hne
        have hlen : 0 < (qW.filter (fun w => !(st.global_history.contains w))).length :=
          List.length_pos.mpr hne'
        have hlt : pick % (qW.filter (fun w => !(st.global_history.contains w))).length
            < (qW.filter (fun w => !(st.global_history.contains w))).length :=
          Nat.mod_lt _ hlen
        simp only [List.getElem?_eq_getElem hlt, Option.getD_some]
        exact List.getElem_mem hlt
    · split at h
      · injection h with h
        subst h
        cases hr
      · cases h

theorem prepare_missingRankList_inv {qW : List String} {mgr : CiYiGameManager}
    {channel : String} {now : Int} {pick : Nat} {req : FetchRequest}
    (h : prepare_guess qW mgr channel now pick = some req)
    (hr : req.reason = FetchReason.missingRankList) :
    ∃ st, mapLookup mgr.states channel = some st ∧
      st.is_finished = false ∧ st.words_rank_list = [] ∧
      req.word_to_fetch = st.target_word := by
  unfold prepare_guess at h
  split at h
  · injection h with h
    subst h
    cases hr
  · rename_i st hst
    split at h
    · split at h
      · cases h
      · injection h with h
        subst h
        cases hr
    · split at h
      · rename_i hcond
        rw [Bool.and_eq_true] at hcond
        injection h with h
        subst h
        refine ⟨st, hst, ?_, ?_, rfl⟩
        · cases hfin : st.is_finished
          · rfl
          · rw [hfin] at hcond
            cases hcond.1
        · exact List.isEmpty_iff.mp hcond.2
      · cases h

/-! ### Invariant preservation through commit -/

theorem applyFetchOk_hintInv (cfg : Config) (mgr : CiYiGameManager)
    (channel : String) (req : FetchRequest) (rankList : List String)
    (now : Int) (hinv : MgrHintInv mgr)
    (hmiss : req.reason = FetchReason.missingRankList →
      ∀ st, mapLookup mgr.states channel = some st → st.hints = []) :
    MgrHintInv (applyFetchOk cfg mgr channel req rankList now) := by
  obtain ⟨word, reason⟩ := req
  cases reason with
  | newGame =>
    intro c st₂ h₂
    simp only [applyFetchOk] at h₂
    rw [mapLookup_mapInsert] at h₂
    split at h₂
    · injection h₂ with h₂
      subst h₂
      exact hintInv_of_hints_nil rfl
    · exact hinv c st₂ h₂
  | newDay =>
    intro c st₂ h₂
    simp only [applyFetchOk] at h₂
    rw [mapLookup_mapModify] at h₂
    split at h₂
    · cases hl : mapLookup mgr.states c with
      | none => rw [hl] at h₂; cases h₂
      | some st₀ =>
        rw [hl] at h₂
        simp only [Option.map_some'] at h₂
        injection h₂ with h₂
        subst h₂
        exact hintInv_of_hints_nil rfl
    · exact hinv c st₂ h₂
  | missingRankList =>
    intro c st₂ h₂
    simp only [applyFetchOk] at h₂
    rw [mapLookup_mapModify] at h₂
    split at h₂
    · rename_i hc
      cases hl : mapLookup mgr.states c with
      | none => rw [hl] at h₂; cases h₂
      | some st₀ =>
        rw [hl] at h₂
        simp only [Option.map_some'] at h₂
        injection h₂ with h₂
        subst h₂
        have hnil : st₀.hints = [] := hmiss rfl st₀ (by rw [hc]; exact hl)
        exact hintInv_of_hints_nil hnil
    · exact hinv c st₂ h₂

/-- The hint invariant is preserved by any protocol-conforming call of
`commit_guess`. -/
theorem commit_hintInv (cfg : Config) (allW qW : List String)
    (mgr : CiYiGameManager) (ch u un g : String) (now : Int) (pick : Nat)
    (fetched : Option FetchedData) (hinv : MgrHintInv mgr)
    (hfc : FetchConsistent qW mgr ch now pick fetched) :
    MgrHintInv (commit_guess cfg allW mgr ch u un g fetched now).2 := by
  rcases hfc with ⟨hnone, rfl⟩ | ⟨req, res, hreq, rfl⟩
  · exact commitCore_hintInv cfg allW mgr ch u un g now hinv
  · cases res with
    | error e => exact hinv
    | ok rankList =>
      show MgrHintInv (commitCore cfg allW
        (applyFetchOk cfg mgr ch req rankList now) ch u un g now).2
      apply commitCore_hintInv
      apply applyFetchOk_hintInv cfg mgr ch req rankList now hinv
      intro hr st hst
      obtain ⟨st', hst', -, hrl, -⟩ := prepare_missingRankList_inv hreq hr
      rw [hst] at hst'
      injection hst' with hst'
      subst hst'
      exact hints_nil_of_rank_list_nil (hinv ch st hst) hrl

/-! ### Branch characterizations of the commit step -/

theorem mem_newHints_of_mem {st : CiYiGameState} {g : String} {x : Hint}
    (hx : x ∈ st.hints) : x ∈ newHints st g := by
  unfold newHints
  rw [mem_sortHints]
  cases st.words_rank_list.findIdx? (fun w => w == g) with
  | none => exact hx
  | some i => exact List.mem_append_left _ hx

theorem commitCore_no_session {cfg : Config} {allW : List String}
    {mgr : CiYiGameManager} {ch : String} (u un g : String) (now : Int)
    (hl : mapLookup mgr.states ch = none) :
    commitCore cfg allW mgr ch u un g now = ("游戏尚未开始，请重试", mgr) := by
  unfold commitCore
  rw [hl]

theorem commitCore_finished {cfg : Config} {allW : List String}
    {mgr : CiYiGameManager} {ch : String} {st : CiYiGameState}
    (u un g : String) (now : Int)
    (hl : mapLookup mgr.states ch = some st) (hfin : st.is_finished = true) :
    commitCore cfg allW mgr ch u un g now = ("每天只能玩一次哦！", mgr) := by
  unfold commitCore
  rw [hl]
  simp [hfin]

theorem commitCore_dup {cfg : Config} {allW : List String}
    {mgr : CiYiGameManager} {ch : String} {st : CiYiGameState}
    (u un g : String) (now : Int)
    (hl : mapLookup mgr.states ch = some st) (hfin : st.is_finished = false)
    (hdup : st.current_guesses.contains g = true) :
    commitCore cfg allW mgr ch u un g now = (g ++ " 已猜过", mgr) := by
  have hdupm : g ∈ st.current_guesses := contains_iff_mem.mp hdup
  unfold commitCore
  rw [hl]
  simp [hfin, hdupm]

theorem commitCore_not_in_dict {cfg : Config} {allW : List String}
    {mgr : CiYiGameManager} {ch : String} {st : CiYiGameState}
    (u un g : String) (now : Int)
    (hl : mapLookup mgr.states ch = some st) (hfin : st.is_finished = false)
    (hdup : st.current_guesses.contains g = false)
    (hdict : allW.contains g = false) :
    commitCore cfg allW mgr ch u un g now = (g ++ " 不在词库中", mgr) := by
  have hdupm : ¬ g ∈ st.current_guesses := fun hm => by
    rw [contains_iff_mem.mpr hm] at hdup
    cases hdup
  have hdictm : ¬ g ∈ allW := fun hm => by
    rw [contains_iff_mem.mpr hm] at hdict
    cases hdict
  unfold commitCore
  rw [hl]
  simp [hfin, hdupm, hdictm]

theorem commitCore_win {cfg : Config} {allW : List String}
    {mgr : CiYiGameManager} {ch : String} {st : CiYiGameState}
    (u un g : String) (now : Int)
    (hl : mapLookup mgr.states ch = some st) (hfin : st.is_finished = false)
    (hdup : st.current_guesses.contains g = false)
    (hdict : allW.contains g = true) (htgt : g = st.target_word) :
    commitCore cfg allW mgr ch u un g now =
      ("恭喜你猜对了！\n答案：" ++ st.target_word ++ "\n猜测："
         ++ toString (st.current_guesses.length + 1) ++ " 次",
       { states := mapModify mgr.states ch (winUpdate g)
         win_records := mgr.win_records ++ [⟨u, un, ch, now⟩] }) := by
  subst htgt
  have hdupm : ¬ st.target_word ∈ st.current_guesses := fun hm => by
    rw [contains_iff_mem.mpr hm] at hdup
    cases hdup
  have hdictm : st.target_word ∈ allW := contains_iff_mem.mp hdict
  unfold commitCore
  rw [hl]
  simp [hfin, hdupm, hdictm, insertSet_of_not_contains hdup]

theorem commitCore_nonwin {cfg : Config} {allW : List String}
    {mgr : CiYiGameManager} {ch : String} {st : CiYiGameState}
    (u un g : String) (now : Int)
    (hl : mapLookup mgr.states ch = some st) (hfin : st.is_finished = false)
    (hdup : st.current_guesses.contains g = false)
    (hdict : allW.contains g = true) (htgt : ¬ g = st.target_word) :
    commitCore cfg allW mgr ch u un g now =
      (renderHints cfg.history_display (newHints st g) ++ "...",
       { mgr with states :=
          mapModify mgr.states ch (hintUpdate g (newHints st g)) }) := by
  have hdupm : ¬ g ∈ st.current_guesses := fun hm => by
    rw [contains_iff_mem.mpr hm] at hdup
    cases hdup
  have hdictm : g ∈ allW := contains_iff_mem.mp hdict
  unfold commitCore
  rw [hl]
  simp [hfin, hdupm, hdictm, htgt]

/-- Fields that the guess-handling steps never change, for every session
in the registry: the target word, the global history, the start time and
the ranked list; hints and guesses only ever grow, and a finished
session is left entirely unchanged. -/
theorem commitCore_state_rel (cfg : Config) (allW : List String)
    (mgr : CiYiGameManager) (ch u un g : String) (now : Int) (c : String)
    (st₀ : CiYiGameState) (h : mapLookup mgr.states c = some st₀) :
    ∃ st₁,
      mapLookup (commitCore cfg allW mgr ch u un g now).2.states c = some st₁ ∧
      st₁.target_word = st₀.target_word ∧
      st₁.global_history = st₀.global_history ∧
      st₁.last_start_time = st₀.last_start_time ∧
      st₁.words_rank_list = st₀.words_rank_list ∧
      (∀ x ∈ st₀.hints, x ∈ st₁.hints) ∧
      (∀ w, st₀.current_guesses.contains w = true →
        st₁.current_guesses.contains w = true) := by
  unfold commitCore
  split
  · exact ⟨st₀, h, rfl, rfl, rfl, rfl, fun x hx => hx, fun w hw => hw⟩
  rename_i st hl
  split
  · exact ⟨st₀, h, rfl, rfl, rfl, rfl, fun x hx => hx, fun w hw => hw⟩
  split
  · exact ⟨st₀, h, rfl, rfl, rfl, rfl, fun x hx => hx, fun w hw => hw⟩
  split
  · exact ⟨st₀, h, rfl, rfl, rfl, rfl, fun x hx => hx, fun w hw => hw⟩
  split
  · -- winning branch
    refine ⟨?_, ?_, ?_⟩
    case _ => exact if ch = c then winUpdate g st₀ else st₀
    · simp only
      rw [mapLookup_mapModify, h]
      split <;> simp_all
    · split
      · exact ⟨rfl, rfl, rfl, rfl, fun x hx => hx,
          fun w hw => insertSet_contains_mono g hw⟩
      · exact ⟨rfl, rfl, rfl, rfl, fun x hx => hx, fun w hw => hw⟩
  · -- non-winning branch
    refine ⟨?_, ?_, ?_⟩
    case _ => exact if hc : ch = c then hintUpdate g (newHints st g) st₀ else st₀
    · simp only
      rw [mapLookup_mapModify, h]
      split <;> simp_all
    · split
      · rename_i hc
        subst hc
        rw [h] at hl
        injection hl with hl
        subst hl
        exact ⟨rfl, rfl, rfl, rfl, fun x hx => mem_newHints_of_mem hx,
          fun w hw => insertSet_contains_mono g hw⟩
      · exact ⟨rfl, rfl, rfl, rfl, fun x hx => hx, fun w hw => hw⟩

theorem newHints_found {st : CiYiGameState} {g : String} {i : Nat}
    (h : st.words_rank_list.findIdx? (fun w => w == g) = some i) :
    newHints st g = sortHints (st.hints ++ [mkHint st.words_rank_list i g]) := by
  unfold newHints
  rw [h]

theorem newHints_not_found {st : CiYiGameState} {g : String}
    (h : st.words_rank_list.findIdx? (fun w => w == g) = none) :
    newHints st g = sortHints st.hints := by
  unfold newHints
  rw [h]

/-! ### Claim C1 -/

/-- C1 (amended): in the two-phase variant, `commit_guess` on a fetch
error returns the fetch-failure message and leaves the whole registry
(session map and win records) unchanged; in the single-phase variant,
the *missing-rank-list* fetch-failure branch of `guess` returns the
fetch-failure message with the session unchanged.  (The NewDay branch of
the single-phase variant does not leave the session unchanged — see the
counterexample.) -/
theorem c1_fetch_error_state_unchanged :
    (∀ (cfg : Config) (allW : List String) (mgr : CiYiGameManager)
       (ch u un g : String) (req : FetchRequest) (e : String) (now : Int),
      commit_guess cfg allW mgr ch u un g (some ⟨req, .error e⟩) now =
        ("获取词语排名失败：" ++ e, mgr)) ∧
    (∀ (cfg : Config) (qW allW : List String)
       (fetch : String → Except String (List String)) (st : CiYiGameState)
       (g : String) (now : Int) (pick : Nat) (e : String),
      st.is_finished = false → st.words_rank_list = [] →
      fetch st.target_word = .error e →
      ciyiGuess cfg qW allW fetch st g now pick =
        (("获取词语排名失败：" ++ e, false), st)) := by
  constructor
  · intro cfg allW mgr ch u un g req e now
    rfl
  · intro cfg qW allW fetch st g now pick e hfin hrl hfe
    unfold ciyiGuess
    rw [hfin]
    simp only [Bool.false_eq_true, if_false]
    unfold ciyiGuessCore
    rw [hrl]
    simp only [List.isEmpty_nil, if_true]
    rw [hfe]

/-- C1 witness: a concrete missing-rank-list fetch error leaves the
session untouched. -/
theorem c1_witness :
    ciyiGuess ⟨false, 10, 10⟩ ["苹果"] ["苹果"] (fun _ => .error "网络错误")
        ⟨"ch", "苹果", 0, ["苹果"], ["香蕉"], [], [], false, false⟩
        "香蕉" 0 0 =
      (("获取词语排名失败：网络错误", false),
       ⟨"ch", "苹果", 0, ["苹果"], ["香蕉"], [], [], false, false⟩) :=
  c1_fetch_error_state_unchanged.2 ⟨false, 10, 10⟩ ["苹果"] ["苹果"]
    (fun _ => .error "网络错误")
    ⟨"ch", "苹果", 0, ["苹果"], ["香蕉"], [], [], false, false⟩
    "香蕉" 0 0 "网络错误" rfl rfl rfl

/-- C1 counterexample: in the single-phase variant, a fetch error in the
NewDay branch returns the fetch-failure message *after* the guesses and
hints have been cleared and the target replaced, so the state is not
"exactly as it was before the call": here the pre-call session had
`current_guesses = ["香蕉"]` and target `"苹果"`, and the post-call
session has empty guesses and target `"词语"`. -/
theorem c1_counterexample :
    (ciyiGuess ⟨false, 10, 10⟩ ["苹果", "词语"] ["苹果"]
        (fun _ => .error "网络错误")
        ⟨"ch", "苹果", 0, ["苹果"], ["香蕉"], ["某词"], [], true, false⟩
        "香蕉" 86400 0).1.1 = "获取词语排名失败：网络错误" ∧
    (ciyiGuess ⟨false, 10, 10⟩ ["苹果", "词语"] ["苹果"]
        (fun _ => .error "网络错误")
        ⟨"ch", "苹果", 0, ["苹果"], ["香蕉"], ["某词"], [], true, false⟩
        "香蕉" 86400 0).2 ≠
      ⟨"ch", "苹果", 0, ["苹果"], ["香蕉"], ["某词"], [], true, false⟩ := by
  constructor
  · rfl
  · decide

/-! ### Claim C2 -/

/-- C2 (amended): in the two-phase variant the rollover test
`is_new_day_in_china_timezone` holds exactly when the calendar dates of
`now + 8h` and `lastStartTime + 8h` differ (fixed UTC+8); but in the
single-phase variant (`ciyi_game.rs`) the rollover comparison is made on
plain-UTC calendar dates, with no 8-hour shift. -/
theorem c2_rollover_calendar :
    (∀ (st : CiYiGameState) (now : Int),
      is_new_day_in_china_timezone st now = true ↔
        dateNaive (now + 8 * 3600) ≠ dateNaive (st.last_start_time + 8 * 3600)) ∧
    (∀ now last : Int,
      ciyiIsNewDay now last = true ↔ dateNaive now ≠ dateNaive last) := by
  constructor
  · intro st now
    unfold is_new_day_in_china_timezone
    exact bne_iff_ne
  · intro now last
    unfold ciyiIsNewDay
    exact bne_iff_ne

/-- C2 counterexample: at `now = 72000` (20:00 UTC of day 0) with
`lastStartTime = 36000` (10:00 UTC of day 0), the UTC+8 calendar dates
differ, yet the single-phase variant's rollover test — which the claim
also covers — is false, because it compares plain-UTC dates.  So the
day-rollover test is not always `date(now+8h) ≠ date(last+8h)`. -/
theorem c2_counterexample :
    ciyiIsNewDay 72000 36000 = false ∧
    dateNaive (72000 + 8 * 3600) ≠ dateNaive (36000 + 8 * 3600) := by
  constructor
  · decide
  · decide

/-- C2 witness: applying the two-phase characterization at a concrete
instant — 20:00 UTC versus 10:00 UTC of the same UTC day is a rollover
in the UTC+8 calendar. -/
theorem c2_witness :
    is_new_day_in_china_timezone
      ⟨"", "", 36000, [], [], [], [], false, false⟩ 72000 = true :=
  (c2_rollover_calendar.1
    ⟨"", "", 36000, [], [], [], [], false, false⟩ 72000).mpr (by decide)

/-! ### Claim C9 -/

/-- C9 (amended): a guess is rejected as already-guessed exactly when it
is present in `currentGuesses` under case-sensitive string equality; the
commit then returns the already-guessed message and leaves the registry
unchanged.  (A word recorded earlier in a different letter case is *not*
rejected — see the counterexample.) -/
theorem c9_duplicate_guess (cfg : Config) (allW : List String)
    (mgr : CiYiGameManager) (ch u un g : String) (st : CiYiGameState)
    (now : Int) (hl : mapLookup mgr.states ch = some st)
    (hfin : st.is_finished = false)
    (hdup : st.current_guesses.contains g = true) :
    commit_guess cfg allW mgr ch u un g none now = (g ++ " 已猜过", mgr) :=
  commitCore_dup u un g now hl hfin hdup

/-- C9 witness: a concrete exact duplicate is rejected and the registry
is left unchanged. -/
theorem c9_witness :
    commit_guess ⟨false, 10, 10⟩ ["香蕉"]
        ⟨[("ch", ⟨"ch", "苹果", 0, ["苹果"], ["香蕉"], [], [], false, false⟩)], []⟩
        "ch" "u" "n" "香蕉" none 0 =
      ("香蕉 已猜过",
       ⟨[("ch", ⟨"ch", "苹果", 0, ["苹果"], ["香蕉"], [], [], false, false⟩)], []⟩) :=
  c9_duplicate_guess ⟨false, 10, 10⟩ ["香蕉"] _ "ch" "u" "n" "香蕉" _ 0 rfl rfl rfl

/-- C9 counterexample: the session has `"AB"` in `currentGuesses` and
the user guesses `"ab"` — the same word recorded earlier in a different
letter case.  The claim says commit must return the already-guessed
message and leave the session unchanged; instead the code's
case-sensitive `contains` misses, the guess is accepted, and the session
gains a new guess. -/
theorem c9_counterexample :
    (commit_guess ⟨false, 10, 10⟩ ["ab"]
        ⟨[("ch", ⟨"ch", "XY", 0, ["XY"], ["AB"], [], [], false, false⟩)], []⟩
        "ch" "u" "n" "ab" none 0).1 ≠ "ab 已猜过" ∧
    (commit_guess ⟨false, 10, 10⟩ ["ab"]
        ⟨[("ch", ⟨"ch", "XY", 0, ["XY"], ["AB"], [], [], false, false⟩)], []⟩
        "ch" "u" "n" "ab" none 0).2 ≠
      ⟨[("ch", ⟨"ch", "XY", 0, ["XY"], ["AB"], [], [], false, false⟩)], []⟩ := by
  constructor
  · decide
  · decide

/-! ### Claim C10 -/

/-- C10: the direct-guess status is the configured default when no
session exists; for an existing session it is true exactly when the
per-channel flag is set and the session is unfinished or a new UTC+8
calendar day has begun; consequently a channel that has already won
today (finished, same UTC+8 day) gets `false` even with the flag set. -/
theorem c10_direct_guess_status (cfg : Config) (mgr : CiYiGameManager)
    (channel : String) (now : Int) :
    (mapLookup mgr.states channel = none →
      get_direct_guess_status cfg mgr channel now = cfg.direct_guess) ∧
    (∀ st, mapLookup mgr.states channel = some st →
      (get_direct_guess_status cfg mgr channel now = true ↔
        st.direct_guess_enabled = true ∧
          (st.is_finished = false ∨
            is_new_day_in_china_timezone st now = true))) ∧
    (∀ st, mapLookup mgr.states channel = some st →
      st.is_finished = true → is_new_day_in_china_timezone st now = false →
      st.direct_guess_enabled = true →
      get_direct_guess_status cfg mgr channel now = false) := by
  refine ⟨?_, ?_, ?_⟩
  · intro h
    unfold get_direct_guess_status
    rw [h]
  · intro st h
    unfold get_direct_guess_status
    rw [h]
    cases hnd : is_new_day_in_china_timezone st now <;>
      cases hfin : st.is_finished <;>
        cases hfl : st.direct_guess_enabled <;> simp_all
  · intro st h hfin hnd hfl
    unfold get_direct_guess_status
    rw [h]
    show ((is_new_day_in_china_timezone st now || !st.is_finished)
      && st.direct_guess_enabled) = false
    rw [hnd, hfin, hfl]
    rfl

/-- C10 witness: a finished session on the same UTC+8 day with the flag
enabled yields `false`; an absent session yields the configured
default. -/
theorem c10_witness :
    get_direct_guess_status ⟨true, 10, 10⟩
      ⟨[("ch", ⟨"ch", "苹果", 0, ["苹果"], [], [], [], true, true⟩)], []⟩
      "ch" 600 = false :=
  (c10_direct_guess_status ⟨true, 10, 10⟩
    ⟨[("ch", ⟨"ch", "苹果", 0, ["苹果"], [], [], [], true, true⟩)], []⟩
    "ch" 600).2.2 _ rfl rfl (by decide) rfl

/-! ### Claim C5 -/

/-- C5: on an active session, a guess equal to the target that passes
the duplicate and dictionary checks finishes the session, appends
exactly one win record carrying that channel and user, and returns the
success message containing the target and the number of guesses this
session; any further guess in that channel (same day, no fetched data)
returns the already-played message and appends no further record. -/
theorem c5_winning_guess (cfg : Config) (allW : List String)
    (mgr : CiYiGameManager) (ch u un g : String) (st : CiYiGameState)
    (now : Int) (hl : mapLookup mgr.states ch = some st)
    (hfin : st.is_finished = false)
    (hdup : st.current_guesses.contains g = false)
    (hdict : allW.contains g = true) (htgt : g = st.target_word) :
    (commit_guess cfg allW mgr ch u un g none now).1 =
      "恭喜你猜对了！\n答案：" ++ st.target_word ++ "\n猜测："
        ++ toString (st.current_guesses.length + 1) ++ " 次" ∧
    (commit_guess cfg allW mgr ch u un g none now).2.win_records =
      mgr.win_records ++ [⟨u, un, ch, now⟩] ∧
    (∃ st₁,
      mapLookup (commit_guess cfg allW mgr ch u un g none now).2.states ch =
        some st₁ ∧ st₁.is_finished = true) ∧
    (∀ (g₂ u₂ un₂ : String) (now₂ : Int),
      commit_guess cfg allW (commit_guess cfg allW mgr ch u un g none now).2
          ch u₂ un₂ g₂ none now₂ =
        ("每天只能玩一次哦！",
         (commit_guess cfg allW mgr ch u un g none now).2)) := by
  have hc : commit_guess cfg allW mgr ch u un g none now =
      commitCore cfg allW mgr ch u un g now := rfl
  have hwin := @commitCore_win cfg allW mgr ch st u un g now hl hfin hdup hdict htgt
  have hlk : mapLookup (commitCore cfg allW mgr ch u un g now).2.states ch =
      some (winUpdate g st) := by
    rw [hwin]
    simp only
    rw [mapLookup_mapModify, hl]
    simp
  refine ⟨?_, ?_, ?_, ?_⟩
  · rw [hc, hwin]
  · rw [hc, hwin]
  · exact ⟨winUpdate g st, by rw [hc]; exact hlk, rfl⟩
  · intro g₂ u₂ un₂ now₂
    rw [hc]
    exact commitCore_finished u₂ un₂ g₂ now₂ hlk rfl

/-- C5 witness: the spec scenario — fresh session whose target happens
to be 苹果, guess 苹果 → the response reports 猜测：1 次, and a second
guess the same day gets the already-played message. -/
theorem c5_witness :
    (commit_guess ⟨false, 10, 10⟩ ["苹果", "香蕉"]
        ⟨[("ch", ⟨"ch", "苹果", 0, ["苹果"], [], ["香蕉"], [], false, false⟩)], []⟩
        "ch" "u42" "玩家" "苹果" none 7).1 =
      "恭喜你猜对了！\n答案：苹果\n猜测：1 次" := by
  have h := (c5_winning_guess ⟨false, 10, 10⟩ ["苹果", "香蕉"]
    ⟨[("ch", ⟨"ch", "苹果", 0, ["苹果"], [], ["香蕉"], [], false, false⟩)], []⟩
    "ch" "u42" "玩家" "苹果"
    ⟨"ch", "苹果", 0, ["苹果"], [], ["香蕉"], [], false, false⟩
    7 rfl rfl rfl (by decide) rfl).1
  rw [h]
  rfl

/-! ### Claim C6 -/

/-- C6: for a non-winning accepted guess found at 0-based index `i` of
the ranked list, a hint with rank `i + 1` is appended (and the list
re-sorted) whose text embeds the previous-word character — the second
character of the entry at `i - 1`, or the placeholder when `i = 0` —
and the next-word character — the first character of the entry at
`i + 1`, or the placeholder when `i` is the last index; when the guess
does not occur in the ranked list no hint is appended, but the guess is
still added to `currentGuesses` in both cases. -/
theorem c6_hint_for_nonwinning_guess (cfg : Config) (allW : List String)
    (mgr : CiYiGameManager) (ch u un g : String) (st : CiYiGameState)
    (now : Int) (hl : mapLookup mgr.states ch = some st)
    (hfin : st.is_finished = false)
    (hdup : st.current_guesses.contains g = false)
    (hdict : allW.contains g = true) (htgt : ¬ g = st.target_word) :
    (∀ i, st.words_rank_list.findIdx? (fun w => w == g) = some i →
      ∃ st₁,
        mapLookup (commit_guess cfg allW mgr ch u un g none now).2.states ch =
          some st₁ ∧
        List.Perm st₁.hints (st.hints ++ [mkHint st.words_rank_list i g]) ∧
        (mkHint st.words_rank_list i g).rank = i + 1 ∧
        (mkHint st.words_rank_list i g).text =
          "？" ++ (prevCharOf st.words_rank_list i).toString ++ " ) " ++ g
            ++ " ( " ++ (nextCharOf st.words_rank_list i).toString
            ++ "？ #" ++ toString (i + 1) ∧
        (i = 0 → prevCharOf st.words_rank_list i = '？') ∧
        (∀ w c, i ≠ 0 → st.words_rank_list[i-1]? = some w →
          w.toList[1]? = some c → prevCharOf st.words_rank_list i = c) ∧
        (st.words_rank_list[i+1]? = none →
          nextCharOf st.words_rank_list i = '？') ∧
        (∀ w c, st.words_rank_list[i+1]? = some w →
          w.toList[0]? = some c → nextCharOf st.words_rank_list i = c) ∧
        st₁.current_guesses.contains g = true) ∧
    (st.words_rank_list.findIdx? (fun w => w == g) = none →
      ∃ st₁,
        mapLookup (commit_guess cfg allW mgr ch u un g none now).2.states ch =
          some st₁ ∧
        List.Perm st₁.hints st.hints ∧
        st₁.current_guesses.contains g = true) := by
  have hc : commit_guess cfg allW mgr ch u un g none now =
      commitCore cfg allW mgr ch u un g now := rfl
  have hnw := @commitCore_nonwin cfg allW mgr ch st u un g now hl hfin hdup hdict htgt
  have hlk : mapLookup (commitCore cfg allW mgr ch u un g now).2.states ch =
      some (hintUpdate g (newHints st g) st) := by
    rw [hnw]
    simp only
    rw [mapLookup_mapModify, hl]
    simp
  constructor
  · intro i hi
    refine ⟨hintUpdate g (newHints st g) st, by rw [hc]; exact hlk,
      ?_, rfl, rfl, ?_, ?_, ?_, ?_, insertSet_contains_self _ _⟩
    · show List.Perm (newHints st g) _
      rw [newHints_found hi]
      exact sortHints_perm _
    · intro h0
      subst h0
      rfl
    · intro w c hne hw hc2
      unfold prevCharOf
      rw [if_neg (by simp [hne])]
      rw [hw]
      have hc3 : w.data[1]? = some c := hc2
      simp [hc3]
    · intro hn
      unfold nextCharOf
      rw [hn]
      rfl
    · intro w c hw hc2
      unfold nextCharOf
      rw [hw]
      have hc3 : w.data[0]? = some c := hc2
      simp [hc3]
  · intro hnone
    refine ⟨hintUpdate g (newHints st g) st, by rw [hc]; exact hlk,
      ?_, insertSet_contains_self _ _⟩
    show List.Perm (newHints st g) st.hints
    rw [newHints_not_found hnone]
    exact sortHints_perm _

/-- C6 witness: the spec scenario — ranked list 甲乙, 丙丁, 戊己 and
guess 丙丁 records rank 2 with neighbour characters 乙 and 戊. -/
theorem c6_witness :
    (mapLookup (commit_guess ⟨false, 10, 10⟩ ["丙丁"]
        ⟨[("ch", ⟨"ch", "苹果", 0, ["苹果"], [], ["甲乙", "丙丁", "戊己"],
           [], false, false⟩)], []⟩
        "ch" "u" "n" "丙丁" none 0).2.states "ch").map
      (fun s => s.hints) = some [⟨"？乙 ) 丙丁 ( 戊？ #2", 2⟩] := by
  obtain ⟨st₁, hlk, hperm, -, -, -, -, -, -, -⟩ :=
    (c6_hint_for_nonwinning_guess ⟨false, 10, 10⟩ ["丙丁"]
      ⟨[("ch", ⟨"ch", "苹果", 0, ["苹果"], [], ["甲乙", "丙丁", "戊己"],
         [], false, false⟩)], []⟩
      "ch" "u" "n" "丙丁"
      ⟨"ch", "苹果", 0, ["苹果"], [], ["甲乙", "丙丁", "戊己"], [], false, false⟩
      0 rfl rfl rfl (by decide) (by decide)).1 1 rfl
  rw [hlk]
  have hsingle : st₁.hints = [mkHint ["甲乙", "丙丁", "戊己"] 1 "丙丁"] :=
    List.perm_singleton.mp (by simpa using hperm)
  rw [Option.map_some', hsingle]
  rfl

theorem prepare_reason_finished_newday {qW : List String}
    {mgr : CiYiGameManager} {ch : String} {st : CiYiGameState} {now : Int}
    {pick : Nat} {req : FetchRequest}
    (hl : mapLookup mgr.states ch = some st) (hfin : st.is_finished = true)
    (hnd : is_new_day_in_china_timezone st now = true)
    (h : prepare_guess qW mgr ch now pick = some req) :
    req.reason = FetchReason.newDay := by
  unfold prepare_guess at h
  split at h
  · rename_i hnone
    rw [hl] at hnone
    exact Option.noConfusion hnone
  · rename_i st' hst'
    rw [hl] at hst'
    injection hst' with hst'
    subst hst'
    rw [if_pos (by rw [hfin, hnd]; rfl)] at h
    split at h
    · cases h
    · injection h with h
      subst h
      rfl

/-! ### Claim C3 -/

/-- C3: for a finished session on a new UTC+8 calendar day,
`prepare_guess` computes the candidates as the target pool minus the
session's `globalHistory`, returns `none` exactly when that set is
empty, and otherwise a `NewDay` request for a member of that set; the
target installed by the subsequent commit (with a successful fetch) is
exactly the requested word, hence never a member of the pre-rollover
`globalHistory`. -/
theorem c3_rollover_candidates (cfg : Config) (allW qW : List String)
    (mgr : CiYiGameManager) (ch u un g : String) (st : CiYiGameState)
    (now : Int) (pick : Nat)
    (hl : mapLookup mgr.states ch = some st) (hfin : st.is_finished = true)
    (hnd : is_new_day_in_china_timezone st now = true) :
    (prepare_guess qW mgr ch now pick = none ↔
      qW.filter (fun w => !(st.global_history.contains w)) = []) ∧
    (∀ req, prepare_guess qW mgr ch now pick = some req →
      req.reason = FetchReason.newDay ∧
      req.word_to_fetch ∈
        qW.filter (fun w => !(st.global_history.contains w)) ∧
      req.word_to_fetch ∈ qW ∧
      st.global_history.contains req.word_to_fetch = false) ∧
    (∀ req rankList, prepare_guess qW mgr ch now pick = some req →
      ∃ st₁, mapLookup (commit_guess cfg allW mgr ch u un g
          (some ⟨req, .ok rankList⟩) now).2.states ch = some st₁ ∧
        st₁.target_word = req.word_to_fetch ∧
        st.global_history.contains st₁.target_word = false) := by
  have hcond : (st.is_finished && is_new_day_in_china_timezone st now) = true := by
    rw [hfin, hnd]
    rfl
  refine ⟨?_, ?_, ?_⟩
  · unfold prepare_guess
    rw [hl]
    show (if (st.is_finished && is_new_day_in_china_timezone st now) = true
        then _ else _) = none ↔ _
    rw [if_pos hcond]
    by_cases he :
        (qW.filter (fun w => !(st.global_history.contains w))).isEmpty = true
    · rw [if_pos he]
      rw [List.isEmpty_iff] at he
      exact iff_of_true rfl he
    · rw [if_neg he]
      rw [List.isEmpty_iff] at he
      exact iff_of_false (by simp) he
  · intro req hreq
    have hr := prepare_reason_finished_newday hl hfin hnd hreq
    obtain ⟨st', hst', -, -, hmem⟩ := prepare_newDay_inv hreq hr
    rw [hl] at hst'
    injection hst' with hst'
    subst hst'
    obtain ⟨hqw, hp⟩ := List.mem_filter.mp hmem
    exact ⟨hr, hmem, hqw, (by simpa using hp)⟩
  · intro req rankList hreq
    have hr := prepare_reason_finished_newday hl hfin hnd hreq
    obtain ⟨st', hst', -, -, hmem⟩ := prepare_newDay_inv hreq hr
    rw [hl] at hst'
    injection hst' with hst'
    subst hst'
    obtain ⟨hqw, hp⟩ := List.mem_filter.mp hmem
    have hhist := (by simpa using hp)
    obtain ⟨word, reason⟩ := req
    simp only at hr
    subst hr
    have happ : mapLookup
        (applyFetchOk cfg mgr ch ⟨word, .newDay⟩ rankList now).states ch =
        some ({ st with
                hints := [],
                current_guesses := [],
                target_word := word,
                global_history := insertSet st.global_history word,
                words_rank_list := rankList,
                last_start_time := now,
                is_finished := false }) := by
      show mapLookup (mapModify mgr.states ch (fun s =>
        { s with
          hints := ([] : List Hint)
          current_guesses := ([] : List String)
          target_word := word
          global_history := insertSet s.global_history word
          words_rank_list := rankList
          last_start_time := now
          is_finished := false })) ch = _
      rw [mapLookup_mapModify, hl]
      simp
    obtain ⟨st₁, hlk, htg, -, -, -, -, -⟩ :=
      commitCore_state_rel cfg allW
        (applyFetchOk cfg mgr ch ⟨word, .newDay⟩ rankList now)
        ch u un g now ch _ happ
    have hcg : commit_guess cfg allW mgr ch u un g
        (some ⟨⟨word, .newDay⟩, .ok rankList⟩) now =
        commitCore cfg allW
          (applyFetchOk cfg mgr ch ⟨word, .newDay⟩ rankList now)
          ch u un g now := rfl
    have hcf : st.global_history.contains word = false := by
      cases hcc : st.global_history.contains word
      · rfl
      · exact absurd (contains_iff_mem.mp hcc) (by simpa using hhist)
    refine ⟨st₁, by rw [hcg]; exact hlk, htg, ?_⟩
    rw [htg]
    exact hcf

/-- C3 witness: concrete rollover — pool 苹果/词语, history 苹果 →
candidate 词语 is requested and installed, and it is not in the
pre-rollover history. -/
theorem c3_witness :
    prepare_guess ["苹果", "词语"]
        ⟨[("ch", ⟨"ch", "苹果", 0, ["苹果"], ["香蕉"], ["某词"], [], true, false⟩)], []⟩
        "ch" 86400 0 ≠ none ∧
    ∀ req, prepare_guess ["苹果", "词语"]
        ⟨[("ch", ⟨"ch", "苹果", 0, ["苹果"], ["香蕉"], ["某词"], [], true, false⟩)], []⟩
        "ch" 86400 0 = some req →
      req.word_to_fetch ∈ ["苹果", "词语"] ∧
      (["苹果"] : List String).contains req.word_to_fetch = false := by
  have h := c3_rollover_candidates ⟨false, 10, 10⟩ [] ["苹果", "词语"]
    ⟨[("ch", ⟨"ch", "苹果", 0, ["苹果"], ["香蕉"], ["某词"], [], true, false⟩)], []⟩
    "ch" "u" "un" "g"
    ⟨"ch", "苹果", 0, ["苹果"], ["香蕉"], ["某词"], [], true, false⟩
    86400 0 rfl rfl (by decide)
  constructor
  · intro hn
    have := h.1.mp hn
    exact absurd this (by decide)
  · intro req hreq
    obtain ⟨-, -, hqw, hhist⟩ := h.2.1 req hreq
    exact ⟨hqw, hhist⟩

/-! ### Claim C4 -/

/-- C4: under the two-phase protocol, an unfinished session never has
its target replaced nor its hints or guesses cleared by a guess
operation, regardless of the current time; a finished session not on a
new UTC+8 day is left completely unchanged (only finished sessions can
roll over, and only across the day boundary); and the mode toggle
preserves the target, hints, guesses and finished flag of an existing
session. -/
theorem c4_unfinished_never_reset (cfg : Config) (allW qW : List String)
    (mgr : CiYiGameManager) (ch u un g : String) (now : Int) (pick : Nat)
    (fetched : Option FetchedData)
    (hfc : FetchConsistent qW mgr ch now pick fetched) :
    (∀ st, mapLookup mgr.states ch = some st → st.is_finished = false →
      ∃ st₁, mapLookup
          (commit_guess cfg allW mgr ch u un g fetched now).2.states ch =
          some st₁ ∧
        st₁.target_word = st.target_word ∧
        (∀ x ∈ st.hints, x ∈ st₁.hints) ∧
        (∀ w, st.current_guesses.contains w = true →
          st₁.current_guesses.contains w = true)) ∧
    (∀ st, mapLookup mgr.states ch = some st → st.is_finished = true →
      is_new_day_in_china_timezone st now = false →
      commit_guess cfg allW mgr ch u un g fetched now =
        ("每天只能玩一次哦！", mgr)) ∧
    (∀ st, mapLookup mgr.states ch = some st →
      ∃ st₁, mapLookup
          (toggle_direct_guess_mode cfg qW mgr ch now pick).2.states ch =
          some st₁ ∧
        st₁.target_word = st.target_word ∧ st₁.hints = st.hints ∧
        st₁.current_guesses = st.current_guesses ∧
        st₁.is_finished = st.is_finished) := by
  refine ⟨?_, ?_, ?_⟩
  · intro st hl hfin
    rcases hfc with ⟨hnone, rfl⟩ | ⟨req, res, hreq, rfl⟩
    · obtain ⟨st₁, hlk, ht, -, -, -, hh, hg⟩ :=
        commitCore_state_rel cfg allW mgr ch u un g now ch st hl
      exact ⟨st₁, hlk, ht, hh, hg⟩
    · cases hr : req.reason with
      | newGame =>
        have hn := prepare_newGame_inv hreq hr
        rw [hn] at hl
        exact Option.noConfusion hl
      | newDay =>
        obtain ⟨st', hst', hfin', -, -⟩ := prepare_newDay_inv hreq hr
        rw [hl] at hst'
        injection hst' with hst'
        subst hst'
        rw [hfin] at hfin'
        cases hfin'
      | missingRankList =>
        obtain ⟨st', hst', -, hrl, -⟩ := prepare_missingRankList_inv hreq hr
        rw [hl] at hst'
        injection hst' with hst'
        subst hst'
        cases res with
        | error e =>
          exact ⟨st, hl, rfl, fun x hx => hx, fun w hw => hw⟩
        | ok rankList =>
          have happ : mapLookup
              (applyFetchOk cfg mgr ch req rankList now).states ch =
              some ({ st with words_rank_list := rankList }) := by
            have he : (applyFetchOk cfg mgr ch req rankList now).states =
                mapModify mgr.states ch
                  (fun s => { s with words_rank_list := rankList }) := by
              unfold applyFetchOk
              rw [hr]
            rw [he, mapLookup_mapModify, hl]
            simp
          obtain ⟨st₁, hlk, ht, -, -, -, hh, hg⟩ :=
            commitCore_state_rel cfg allW
              (applyFetchOk cfg mgr ch req rankList now)
              ch u un g now ch _ happ
          exact ⟨st₁, hlk, ht, hh, hg⟩
  · intro st hl hfin hnd
    have hprep : prepare_guess qW mgr ch now pick = none := by
      unfold prepare_guess
      rw [hl]
      show (if (st.is_finished && is_new_day_in_china_timezone st now) = true
          then _ else _) = none
      rw [if_neg (by rw [hfin, hnd]; simp)]
      rw [if_neg (by rw [hfin]; simp)]
    rcases hfc with ⟨-, rfl⟩ | ⟨req, res, hreq, rfl⟩
    · exact commitCore_finished u un g now hl hfin
    · rw [hprep] at hreq
      cases hreq
  · intro st hl
    refine ⟨{ st with direct_guess_enabled := !st.direct_guess_enabled },
      ?_, rfl, rfl, rfl, rfl⟩
    unfold toggle_direct_guess_mode
    rw [hl]
    show mapLookup (mapModify mgr.states ch
      (fun s => { s with direct_guess_enabled := !s.direct_guess_enabled }))
      ch = _
    rw [mapLookup_mapModify, hl]
    simp

/-- C4 witness: a concrete unfinished session across a large time jump
keeps its target, hints and guesses, and a finished session on the same
UTC+8 day is untouched by a further commit. -/
theorem c4_witness :
    ∃ st₁, mapLookup (commit_guess ⟨false, 10, 10⟩ ["香蕉"]
        ⟨[("ch", ⟨"ch", "苹果", 0, ["苹果"], ["桌子"], ["香蕉"],
           [⟨"h", 1⟩], false, false⟩)], []⟩
        "ch" "u" "n" "香蕉" none 10000000).2.states "ch" = some st₁ ∧
      st₁.target_word = "苹果" ∧ Hint.mk "h" 1 ∈ st₁.hints := by
  obtain ⟨st₁, hlk, ht, hh, -⟩ :=
    (c4_unfinished_never_reset ⟨false, 10, 10⟩ ["香蕉"] ["苹果"]
      ⟨[("ch", ⟨"ch", "苹果", 0, ["苹果"], ["桌子"], ["香蕉"],
         [⟨"h", 1⟩], false, false⟩)], []⟩
      "ch" "u" "n" "香蕉" 10000000 0 none
      (Or.inl ⟨rfl, rfl⟩)).1
    ⟨"ch", "苹果", 0, ["苹果"], ["桌子"], ["香蕉"], [⟨"h", 1⟩], false, false⟩
    rfl rfl
  exact ⟨st₁, hlk, ht, hh (Hint.mk "h" 1) (by simp)⟩

/-! ### Claim C7 -/

/-- C7: after every protocol-conforming guess operation, every session's
hints are sorted non-decreasing by rank; moreover the ranks are pairwise
distinct, so the requirement that hints of equal rank keep their
insertion order holds vacuously — no reachable session ever carries two
hints of equal rank (which is also why the unstable `sort_unstable` of
the source is modelled exactly by any sort). -/
theorem c7_hints_sorted_after_guess (cfg : Config) (allW qW : List String)
    (mgr : CiYiGameManager) (ch u un g : String) (now : Int) (pick : Nat)
    (fetched : Option FetchedData) (hinv : MgrHintInv mgr)
    (hfc : FetchConsistent qW mgr ch now pick fetched) :
    ∀ c st₁,
      mapLookup (commit_guess cfg allW mgr ch u un g fetched now).2.states c =
        some st₁ →
      List.Sorted hintLe st₁.hints ∧ (st₁.hints.map Hint.rank).Nodup := by
  intro c st₁ h
  have h₂ := commit_hintInv cfg allW qW mgr ch u un g now pick fetched hinv hfc
    c st₁ h
  exact ⟨h₂.1, h₂.2.1⟩

/-- C7 witness: a concrete NewGame commit with a non-winning guess
produces a session with sorted, distinct-rank hints. -/
theorem c7_witness :
    List.Sorted hintLe
      (((mapLookup (commit_guess ⟨false, 10, 10⟩ ["香蕉"]
          ⟨[], []⟩ "ch" "u" "n" "香蕉"
          (some ⟨⟨"苹果", .newGame⟩, .ok ["香蕉"]⟩) 0).2.states "ch").getD
        (freshState ⟨false, 10, 10⟩ "" "" 0 [])).hints) := by
  have hmn : MgrHintInv (⟨[], []⟩ : CiYiGameManager) :=
    fun c st h => Option.noConfusion h
  have hfc : FetchConsistent ["苹果"] ⟨[], []⟩ "ch" 0 0
      (some ⟨⟨"苹果", .newGame⟩, .ok ["香蕉"]⟩) :=
    Or.inr ⟨⟨"苹果", .newGame⟩, .ok ["香蕉"], rfl, rfl⟩
  cases hlk : mapLookup (commit_guess ⟨false, 10, 10⟩ ["香蕉"]
      ⟨[], []⟩ "ch" "u" "n" "香蕉"
      (some ⟨⟨"苹果", .newGame⟩, .ok ["香蕉"]⟩) 0).2.states "ch" with
  | none =>
    simp [freshState]
  | some stX =>
    have h := c7_hints_sorted_after_guess ⟨false, 10, 10⟩ ["香蕉"] ["苹果"]
      ⟨[], []⟩ "ch" "u" "n" "香蕉" 0 0
      (some ⟨⟨"苹果", .newGame⟩, .ok ["香蕉"]⟩) hmn hfc "ch" stX hlk
    exact h.1

/-! ### Claim C8: leaderboard aggregation -/

theorem groupScoresAux_append (acc : List UserScore) (l : List WinRecord)
    (r : WinRecord) :
    groupScoresAux acc (l ++ [r]) = updScores (groupScoresAux acc l) r := by
  induction l generalizing acc with
  | nil => rfl
  | cons a l ih => exact ih (updScores acc a)

theorem groupScores_append (l : List WinRecord) (r : WinRecord) :
    groupScores (l ++ [r]) = updScores (groupScores l) r :=
  groupScoresAux_append [] l r

/-- The grouping pass of `generate_leaderboard` is correct: every
aggregated entry counts exactly the records of its user and carries the
username of the most recent one; user ids are grouped (no duplicates)
and cover exactly the users appearing in the records. -/
theorem groupScores_spec (records : List WinRecord) :
    (∀ u ∈ groupScores records,
      u.score = (records.filter (fun r => r.user_id == u.user_id)).length ∧
      ((records.filter (fun r => r.user_id == u.user_id)).getLast?).map
        WinRecord.username = some u.username) ∧
    ((groupScores records).map UserScore.user_id).Nodup ∧
    (∀ uid, (∃ u ∈ groupScores records, u.user_id = uid) ↔
      (∃ r ∈ records, r.user_id = uid)) := by
  induction records using List.reverseRecOn with
  | nil => simp [groupScores, groupScoresAux]
  | append_singleton l r ih =>
    obtain ⟨ihel, ihnd, ihmem⟩ := ih
    rw [groupScores_append]
    unfold updScores
    split
    · -- the user already has an entry
      rename_i hany
      rw [List.any_eq_true] at hany
      obtain ⟨u₀, hu₀, hbeq₀⟩ := hany
      refine ⟨?_, ?_, ?_⟩
      · intro u' hu'
        rw [List.mem_map] at hu'
        obtain ⟨u, hu, hupd⟩ := hu'
        by_cases hid : u.user_id = r.user_id
        · rw [if_pos hid] at hupd
          subst hupd
          simp only [List.filter_append]
          have hpr : (r.user_id == u.user_id) = true := by
            simp [hid]
          obtain ⟨hsc, -⟩ := ihel u hu
          constructor
          · simp only [List.filter_cons, List.filter_nil, hpr, if_pos]
            rw [List.length_append]
            simp [hsc]
          · have hfr : List.filter (fun r2 => r2.user_id == u.user_id) [r]
                = [r] := by
              simp [List.filter_cons, hpr]
            rw [hfr, List.getLast?_concat]
            rfl
        · rw [if_neg hid] at hupd
          subst hupd
          simp only [List.filter_append]
          have hpr : (r.user_id == u.user_id) = false := by
            simp only [beq_eq_false_iff_ne, ne_eq]
            intro hh
            exact hid hh.symm
          have hfr : List.filter (fun r2 => r2.user_id == u.user_id) [r]
              = [] := by
            simp [List.filter_cons, hpr]
          rw [hfr, List.append_nil]
          exact ihel u hu
      · have hmap : (List.map (fun u =>
            if u.user_id = r.user_id then
              { u with username := r.username, score := u.score + 1 }
            else u) (groupScores l)).map UserScore.user_id =
            (groupScores l).map UserScore.user_id := by
          rw [List.map_map]
          apply List.map_congr_left
          intro u hu
          by_cases hid : u.user_id = r.user_id <;> simp [hid]
        rw [hmap]
        exact ihnd
      · intro uid
        constructor
        · rintro ⟨u', hu', huid⟩
          rw [List.mem_map] at hu'
          obtain ⟨u, hu, hupd⟩ := hu'
          have huid' : u.user_id = uid := by
            by_cases hid : u.user_id = r.user_id
            · rw [if_pos hid] at hupd
              rw [← hupd] at huid
              exact huid
            · rw [if_neg hid] at hupd
              rw [← hupd] at huid
              exact huid
          obtain ⟨rec, hrec, hrid⟩ := (ihmem uid).mp ⟨u, hu, huid'⟩
          exact ⟨rec, List.mem_append_left _ hrec, hrid⟩
        · rintro ⟨rec, hrec, hrid⟩
          rw [List.mem_append] at hrec
          rcases hrec with hrec | hrec
          · obtain ⟨u, hu, huid⟩ := (ihmem uid).mpr ⟨rec, hrec, hrid⟩
            refine ⟨(if u.user_id = r.user_id then
              { u with username := r.username, score := u.score + 1 }
              else u), List.mem_map_of_mem _ hu, ?_⟩
            by_cases hid : u.user_id = r.user_id
            · rw [if_pos hid]
              exact huid
            · rw [if_neg hid]
              exact huid
          · rw [List.mem_singleton] at hrec
            subst hrec
            have hu₀id : u₀.user_id = rec.user_id := by simpa using hbeq₀
            refine ⟨(if u₀.user_id = rec.user_id then
              { u₀ with username := rec.username, score := u₀.score + 1 }
              else u₀), List.mem_map_of_mem _ hu₀, ?_⟩
            rw [if_pos hu₀id]
            rw [← hrid]
            exact hu₀id
    · -- a fresh user entry is appended
      rename_i hany
      have hany' : ((groupScores l).any fun u => u.user_id == r.user_id)
          = false := Bool.of_not_eq_true hany
      rw [List.any_eq_false] at hany'
      have hanyne : ∀ u ∈ groupScores l, u.user_id ≠ r.user_id := by
        intro u hu
        simpa using hany' u hu
      have hnol : ∀ rec ∈ l, rec.user_id ≠ r.user_id := by
        intro rec hrec heq
        obtain ⟨u, hu, huid⟩ := (ihmem r.user_id).mpr ⟨rec, hrec, heq⟩
        exact hanyne u hu huid
      refine ⟨?_, ?_, ?_⟩
      · intro u' hu'
        rw [List.mem_append] at hu'
        rcases hu' with hu' | hu'
        · have hne := hanyne u' hu'
          simp only [List.filter_append]
          have hpr : (r.user_id == u'.user_id) = false := by
            simp only [beq_eq_false_iff_ne, ne_eq]
            intro hh
            exact hne hh.symm
          have hfr : List.filter (fun r2 => r2.user_id == u'.user_id) [r]
              = [] := by
            simp [List.filter_cons, hpr]
          rw [hfr, List.append_nil]
          exact ihel u' hu'
        · rw [List.mem_singleton] at hu'
          subst hu'
          simp only [List.filter_append]
          have hfl : List.filter (fun r2 => r2.user_id ==
              (⟨r.user_id, r.username, 1⟩ : UserScore).user_id) l = [] := by
            rw [List.filter_eq_nil_iff]
            intro a ha
            simp only [Bool.not_eq_true, beq_eq_false_iff_ne, ne_eq]
            exact hnol a ha
          have hfr : List.filter (fun r2 => r2.user_id ==
              (⟨r.user_id, r.username, 1⟩ : UserScore).user_id) [r]
              = [r] := by
            simp [List.filter_cons]
          rw [hfl, hfr, List.nil_append]
          exact ⟨rfl, rfl⟩
      · rw [List.map_append]
        rw [List.nodup_append]
        refine ⟨ihnd, by simp, ?_⟩
        intro x hx hx'
        simp only [List.map_cons, List.map_nil, List.mem_singleton] at hx'
        subst hx'
        obtain ⟨u, hu, huid⟩ := List.mem_map.mp hx
        exact hanyne u hu huid
      · intro uid
        constructor
        · rintro ⟨u', hu', huid⟩
          rw [List.mem_append] at hu'
          rcases hu' with hu' | hu'
          · obtain ⟨rec, hrec, hrid⟩ := (ihmem uid).mp ⟨u', hu', huid⟩
            exact ⟨rec, List.mem_append_left _ hrec, hrid⟩
          · rw [List.mem_singleton] at hu'
            subst hu'
            exact ⟨r, List.mem_append_right _ (by simp), huid⟩
        · rintro ⟨rec, hrec, hrid⟩
          rw [List.mem_append] at hrec
          rcases hrec with hrec | hrec
          · obtain ⟨u, hu, huid⟩ := (ihmem uid).mpr ⟨rec, hrec, hrid⟩
            exact ⟨u, List.mem_append_left _ hu, huid⟩
          · rw [List.mem_singleton] at hrec
            subst hrec
            exact ⟨⟨rec.user_id, rec.username, 1⟩,
              List.mem_append_right _ (by simp), hrid⟩

theorem sortScores_perm (l : List UserScore) : List.Perm (sortScores l) l :=
  List.perm_insertionSort scoreGe l

theorem sortScores_sorted (l : List UserScore) :
    List.Sorted scoreGe (sortScores l) :=
  List.sorted_insertionSort scoreGe l

theorem groupScores_replicate (uid un cid : String) (ts : Int) :
    ∀ n, 0 < n →
      groupScores (List.replicate n ⟨uid, un, cid, ts⟩) = [⟨uid, un, n⟩] := by
  intro n
  induction n with
  | zero => intro h; exact absurd h (Nat.lt_irrefl 0)
  | succ n ih =>
    intro h
    cases hn : n with
    | zero => rfl
    | succ m =>
      subst hn
      rw [List.replicate_succ' (m + 1) (⟨uid, un, cid, ts⟩ : WinRecord)]
      rw [groupScores_append, ih (Nat.succ_pos m)]
      unfold updScores
      rw [if_pos (by simp)]
      simp

/-- C8: leaderboard generation groups records by user id, accumulating
the count as the score and taking each user's name from the most
recently seen record; the empty record sequence yields the fixed
nobody-has-won message; the rendered list is sorted descending by
score; and N records of a single user yield exactly the line
`1. {username} N`. -/
theorem c8_leaderboard (cfg : Config) :
    (generate_leaderboard cfg [] = "当前还没有人猜对过哦！") ∧
    (∀ records, ∀ u ∈ groupScores records,
      u.score = (records.filter (fun r => r.user_id == u.user_id)).length ∧
      ((records.filter (fun r => r.user_id == u.user_id)).getLast?).map
        WinRecord.username = some u.username) ∧
    (∀ records : List WinRecord,
      List.Sorted scoreGe (sortScores (groupScores records))) ∧
    (∀ (records : List WinRecord) (u : UserScore),
      u ∈ sortScores (groupScores records) ↔ u ∈ groupScores records) ∧
    (∀ (uid un cid : String) (ts : Int) (n : Nat), 0 < n →
      0 < cfg.rank_display →
      generate_leaderboard cfg (List.replicate n ⟨uid, un, cid, ts⟩) =
        "1. " ++ un ++ " " ++ toString n) := by
  refine ⟨rfl, ?_, ?_, ?_, ?_⟩
  · intro records
    exact (groupScores_spec records).1
  · intro records
    exact sortScores_sorted _
  · intro records u
    exact (sortScores_perm _).mem_iff
  · intro uid un cid ts n hn hrd
    obtain ⟨k, hk⟩ : ∃ k, cfg.rank_display = k + 1 :=
      ⟨cfg.rank_display - 1, (Nat.succ_pred_eq_of_pos hrd).symm⟩
    unfold generate_leaderboard
    rw [groupScores_replicate uid un cid ts n hn]
    rw [hk]
    simp [sortScores, List.insertionSort, List.orderedInsert, joinLines,
      renderHints]
    rfl

/-- C8 witness: three records of one user render as a single line with
score 3, and the empty record list gives the fixed message. -/
theorem c8_witness :
    generate_leaderboard ⟨false, 10, 10⟩
      (List.replicate 3 ⟨"u1", "Alice", "ch", 0⟩) = "1. Alice 3" := by
  have h := (c8_leaderboard ⟨false, 10, 10⟩).2.2.2.2 "u1" "Alice" "ch" 0 3
    (by decide) (by decide)
  rw [h]
  rfl

end CiYi
